import Mathlib

/-
Verification development for the L9Bot respawn scheduling engine (src/bot.py).

Shallow embedding conventions:
- Absolute instants are integers: microseconds since an arbitrary epoch for the
  persistence layer (Python datetime has microsecond resolution), and seconds for
  the timer pipeline (asyncio sleep durations are derived from total_seconds()).
- The in-memory dict respawn_schedule is an association list with unique keys;
  dict assignment, deletion, lookup and membership are storeSet, storeDel,
  storeGet? and storeMem.
- The asyncio execution of schedule_boss / announce_boss tasks is a discrete
  event simulator: each task sleeps until a wake instant; the earliest pending
  event (a scheduled arm from the command layer, or a task wake-up) runs next,
  exactly as the single-threaded event loop would run it.  Sending a message to
  the active channels is recorded as a log entry (boss, stage, time).
- Python datetime.isoformat / datetime.fromisoformat are modelled at the level
  of the fields the ISO-8601 string carries (proleptic Gregorian calendar date,
  time of day to microseconds, UTC offset), with the standard civil-from-days
  calendar bijection.
-/

-- ===========================================================================
-- Calendar / ISO-8601 model (datetime.isoformat and datetime.fromisoformat)
-- ===========================================================================

/-- Day number of the first day of year-of-era y (0 ≤ y ≤ 399) within a
400-year Gregorian era, counting leap days:  365*y + y/4 - y/100. -/
def dayOfEra (y : Int) : Int := 365 * y + y / 4 - y / 100

/-- One past the last day number of year-of-era y inside the era
(the era has exactly 146097 days). -/
def eraUpper (y : Int) : Int := if y = 399 then 146097 else dayOfEra (y + 1)

/-- Leap-day-corrected shift of a day-of-era, the core of the civil-from-days
computation. -/
def shiftS (d : Int) : Int := d - d / 1460 + d / 36524 - d / 146096

/-- Year of era of a day of era. -/
def yoeOfDoe (doe : Int) : Int := shiftS doe / 365

/-- Day of year (March-based, 0 = March 1) of a day of era. -/
def doyOfDoe (doe : Int) : Int := doe - dayOfEra (yoeOfDoe doe)

/-- March-based month index (0 = March .. 11 = February) of a day of year. -/
def mpOfDoy (doy : Int) : Int := (5 * doy + 2) / 153

/-- Convert a day count (days since 1970-01-01) to a proleptic Gregorian civil
date (year, month, day).  This is the calendar bijection underlying the date
part of the ISO-8601 string printed by datetime.isoformat. -/
def civilFromDays (z : Int) : Int × Int × Int :=
  let era := (z + 719468) / 146097
  let doe := (z + 719468) % 146097
  let yoe := yoeOfDoe doe
  let doy := doyOfDoe doe
  let mp := mpOfDoy doy
  let d := doy - (153 * mp + 2) / 5 + 1
  let m := mp + (if mp < 10 then 3 else -9)
  (yoe + era * 400 + (if m ≤ 2 then 1 else 0), m, d)

/-- Convert a proleptic Gregorian civil date back to a day count, as
datetime.fromisoformat does when parsing the date part of an ISO string. -/
def daysFromCivil (y m d : Int) : Int :=
  let yy := y - (if m ≤ 2 then 1 else 0)
  let era := yy / 400
  let yoe := yy % 400
  let doy := (153 * (m + (if 2 < m then -3 else 9)) + 2) / 5 + d - 1
  let doe := yoe * 365 + yoe / 4 - yoe / 100 + doy
  era * 146097 + doe - 719468

/-- Fields carried by the ISO-8601 timestamp string produced by
datetime.isoformat: civil date, time of day to microsecond resolution, and the
UTC offset in minutes (none for a naive datetime). -/
structure IsoTimestamp where
  year : Int
  month : Int
  day : Int
  hour : Int
  minute : Int
  second : Int
  usec : Int
  offsetMinutes : Option Int
deriving DecidableEq

/-- Model of datetime.isoformat on a UTC-aware datetime whose instant is t
microseconds since the epoch: the ISO string records the civil date, the time
of day, and the "+00:00" offset. -/
def isoformat (t : Int) : IsoTimestamp :=
  let days := t / 86400000000
  let r := t % 86400000000
  let c := civilFromDays days
  ⟨c.1, c.2.1, c.2.2, r / 3600000000, r % 3600000000 / 60000000,
    r % 60000000 / 1000000, r % 1000000, some 0⟩

/-- Model of datetime.fromisoformat followed by the load-side normalization in
load_respawn_data: a naive timestamp (offsetMinutes = none) is assumed UTC, an
aware one is converted to UTC (astimezone), yielding the absolute instant in
microseconds since the epoch. -/
def fromisoformat (iso : IsoTimestamp) : Int :=
  daysFromCivil iso.year iso.month iso.day * 86400000000 +
    iso.hour * 3600000000 + iso.minute * 60000000 + iso.second * 1000000 +
    iso.usec - iso.offsetMinutes.getD 0 * 60000000

-- ===========================================================================
-- Respawn store (the respawn_schedule dict and its JSON persistence)
-- ===========================================================================

/-- The in-memory respawn schedule: an association list boss name -> absolute
respawn instant, with unique keys (it models a Python dict). -/
abbrev Store := List (String × Int)

/-- Dict lookup: respawn_schedule.get(b). -/
def storeGet? : Store → String → Option Int
  | [], _ => none
  | (k, v) :: rest, b => if k = b then some v else storeGet? rest b

/-- Dict membership test: b in respawn_schedule. -/
def storeMem (s : Store) (b : String) : Bool := (storeGet? s b).isSome

/-- Dict assignment: respawn_schedule[b] = v (overwrites in place, appends if
absent). -/
def storeSet : Store → String → Int → Store
  | [], b, v => [(b, v)]
  | (k, w) :: rest, b, v =>
      if k = b then (k, v) :: rest else (k, w) :: storeSet rest b v

/-- Dict deletion: del respawn_schedule[b]. -/
def storeDel : Store → String → Store
  | [], _ => []
  | (k, w) :: rest, b =>
      if k = b then storeDel rest b else (k, w) :: storeDel rest b

/-- Persist respawn_schedule to disk: json.dump of boss -> dt.isoformat()
(save_respawn_data in bot.py). -/
def save_respawn_data (s : Store) : List (String × IsoTimestamp) :=
  s.map (fun p => (p.1, isoformat p.2))

/-- Load the persisted schedule back: datetime.fromisoformat per entry, naive
entries assumed UTC, all normalized to UTC (load_respawn_data in bot.py). -/
def load_respawn_data (raw : List (String × IsoTimestamp)) : Store :=
  raw.map (fun p => (p.1, fromisoformat p.2))

-- ===========================================================================
-- Boss registry and name resolution (BOSSES and find_boss)
-- ===========================================================================

/-- Static definition of one boss in BOSSES (bosses.json): an optional respawn
interval in hours and an optional fixed schedule (list of descriptor strings).
Python truthiness applies: interval 0 and an empty schedule list are falsy. -/
structure BossDef where
  interval : Option Int
  schedule : Option (List String)
deriving DecidableEq

/-- The boss registry BOSSES: name -> definition, loaded once, read only. -/
abbrev Registry := List (String × BossDef)

/-- Python str.lower on the underlying characters. -/
def lowerStr (s : String) : String := String.mk (s.toList.map Char.toLower)

/-- Python str.strip: drop leading and trailing whitespace. -/
def stripStr (s : String) : String :=
  String.mk
    (((s.toList.dropWhile Char.isWhitespace).reverse.dropWhile
        Char.isWhitespace).reverse)

/-- Helper for substring search: q is a prefix of s. -/
def prefixOfB : List Char → List Char → Bool
  | [], _ => true
  | _ :: _, [] => false
  | a :: xs, b :: ys => a = b && prefixOfB xs ys

/-- Helper for substring search: q occurs contiguously in s. -/
def infixOfB (q : List Char) : List Char → Bool
  | [] => prefixOfB q []
  | c :: rest => prefixOfB q (c :: rest) || infixOfB q rest

/-- Python contiguous substring containment: q in s. -/
def substrOf (q s : String) : Bool := infixOfB q.toList s.toList

/-- Registry lookup BOSSES[k] (with empty default for the .get(k, {}) form). -/
def lookupBoss : Registry → String → BossDef
  | [], _ => ⟨none, none⟩
  | (k, d) :: rest, b => if k = b then d else lookupBoss rest b

/-- find_boss from bot.py: empty query resolves to nothing; otherwise the
stripped lower-cased query resolves if it is exactly a registry key, or if it
is a substring of exactly one (lower-cased) registry key. -/
def find_boss (bosses : Registry) (query : String) : Option String :=
  if query = "" then none
  else
    let q := lowerStr (stripStr query)
    if bosses.any (fun b => b.1 == q) then some q
    else
      match bosses.filter (fun b => substrOf q (lowerStr b.1)) with
      | [m] => some m.1
      | _ => none

-- ===========================================================================
-- Timer pipeline and event-loop simulator (schedule_boss / announce_boss)
-- ===========================================================================

/-- Suspension stage of a running announce_boss task: sleeping towards the
pre-alert instant, or sleeping towards the final respawn alert. -/
inductive Phase
  | sleepPre
  | sleepFinal
deriving DecidableEq

/-- One running announce_boss task: the boss it serves, the respawn instant it
was armed with, its current suspension stage, and the instant it wakes at. -/
structure PipeTask where
  boss : String
  instant : Int
  phase : Phase
  wake : Int
deriving DecidableEq

/-- State of announce_boss just after it starts at time t0 (all times in
seconds): alert_time = instant - PRE_ALERT_MINUTES minutes; if the wait to the
pre-alert is positive the task sleeps until alert_time, otherwise it proceeds
directly to the final-alert wait, which is itself skipped when the respawn
instant is already past. -/
def spawnTask (t0 : Int) (b : String) (instant pre : Int) : PipeTask :=
  let alert := instant - 60 * pre
  if t0 < alert then ⟨b, instant, Phase.sleepPre, alert⟩
  else ⟨b, instant, Phase.sleepFinal, max instant t0⟩

/-- Wake a sleeping task: it emits its stage notification at its wake time and
either continues to the final-alert sleep or terminates.  The returned flag
says whether the terminal cleanup block of announce_boss runs now. -/
def fireTask (tk : PipeTask) : (String × String × Int) × Option PipeTask × Bool :=
  match tk.phase with
  | Phase.sleepPre =>
      ((tk.boss, "pre-alert", tk.wake),
        some ⟨tk.boss, tk.instant, Phase.sleepFinal, max tk.instant tk.wake⟩,
        false)
  | Phase.sleepFinal => ((tk.boss, "respawned", tk.wake), none, true)

/-- Run one task to completion without interference, collecting its emitted
notifications in order (fuel-indexed; two steps always suffice). -/
def runTaskAux : Nat → PipeTask → List (String × String × Int)
  | 0, _ => []
  | n + 1, tk =>
      match fireTask tk with
      | (e, some tk2, _) => e :: runTaskAux n tk2
      | (e, none, _) => [e]

/-- The full notification trace of one announce_boss invocation started at t0
for a boss with respawn instant and pre-alert minutes pre, when no other task
interferes with it. -/
def announce_boss_trace (t0 : Int) (b : String) (instant pre : Int) :
    List (String × String × Int) :=
  runTaskAux 2 (spawnTask t0 b instant pre)

/-- Global state of the event-loop simulation: the in-memory schedule, its
persisted copy, the running tasks, the log of notifications delivered so far,
the pending command-layer arm events (time-ordered), and the current
PRE_ALERT_MINUTES value. -/
structure Sim where
  sched : Store
  saved : Store
  tasks : List PipeTask
  log : List (String × String × Int)
  script : List (Int × String × Int)
  pre : Int
deriving DecidableEq

/-- schedule_boss from bot.py, run at time t0: store the respawn instant,
persist, and create the background announce_boss task.  No existing task for
the same boss is cancelled or even looked at. -/
def schedule_boss (t0 : Int) (b : String) (instant : Int) (s : Sim) : Sim :=
  let sched2 := storeSet s.sched b instant
  { s with
      sched := sched2
      saved := sched2
      tasks := s.tasks ++ [spawnTask t0 b instant s.pre] }

/-- Pick the running task with the earliest wake time (first one on ties, as
the event loop serves equal deadlines in creation order). -/
def popMinTask : List PipeTask → Option (PipeTask × List PipeTask)
  | [] => none
  | tk :: rest =>
      match popMinTask rest with
      | none => some (tk, [])
      | some (m, rest2) =>
          if tk.wake ≤ m.wake then some (tk, rest) else some (m, tk :: rest2)

/-- Run the earliest-waking task for one stage: deliver its notification and,
when its terminal cleanup runs, delete the boss key from the schedule if
present (the cleanup in announce_boss checks only key membership). -/
def fireMin (s : Sim) : Sim :=
  match popMinTask s.tasks with
  | none => s
  | some (tk, rest) =>
      match fireTask tk with
      | (e, nxt, clean) =>
          let tasks2 := match nxt with
            | some tk2 => rest ++ [tk2]
            | none => rest
          let s2 := { s with tasks := tasks2, log := s.log ++ [e] }
          if clean && storeMem s2.sched tk.boss then
            let sched2 := storeDel s2.sched tk.boss
            { s2 with sched := sched2, saved := sched2 }
          else s2

/-- One step of the event loop: the earliest pending event runs, either the
next scripted arm from the command layer or the earliest task wake-up. -/
def simStep (s : Sim) : Sim :=
  match s.script, popMinTask s.tasks with
  | [], none => s
  | (t, b, instant) :: rest, none =>
      schedule_boss t b instant { s with script := rest }
  | (t, b, instant) :: rest, some (tk, _) =>
      if t ≤ tk.wake then schedule_boss t b instant { s with script := rest }
      else fireMin s
  | [], some _ => fireMin s

/-- Run the event loop for a bounded number of steps. -/
def simRun : Nat → Sim → Sim
  | 0, s => s
  | n + 1, s => simRun n (simStep s)

/-- Initial simulator state: empty schedule, no tasks, a time-ordered script of
arm events from the command layer. -/
def initSim (pre : Int) (script : List (Int × String × Int)) : Sim :=
  ⟨[], [], [], [], script, pre⟩

/-- Delete one boss entry and persist (the expired-entry branch of on_ready). -/
def delBoss (b : String) (s : Sim) : Sim :=
  let sched2 := storeDel s.sched b
  { s with sched := sched2, saved := sched2 }

/-- Startup reconciliation loop body of on_ready: walk the loaded schedule, arm
future entries through schedule_boss and purge expired ones. -/
def onReadyGo (now : Int) : List (String × Int) → Sim → Sim
  | [], s => s
  | (b, t) :: rest, s =>
      onReadyGo now rest (if now < t then schedule_boss now b t s else delBoss b s)

/-- on_ready from bot.py restricted to schedule resumption: starting from the
loaded schedule with no running tasks, reconcile every saved record. -/
def on_ready (now pre : Int) (saved : Store) : Sim :=
  onReadyGo now saved ⟨saved, saved, [], [], [], pre⟩

-- ===========================================================================
-- The dead command (computed-respawn logging path)
-- ===========================================================================

/-- Reply sent by the dead command. -/
inductive DeadReply
  | unknownBoss (raw : String)
  | fixedSchedule (b : String)
  | marked (b : String) (respawn : Int)
deriving DecidableEq

/-- Python truthiness of BOSSES[k].get("schedule"): present and non-empty. -/
def schedTruthy (d : BossDef) : Bool :=
  match d.schedule with
  | some (_ :: _) => true
  | _ => false

/-- Python truthiness of BOSSES[k].get("interval"): present and non-zero. -/
def intervalTruthy : Option Int → Option Int
  | some i => if i = 0 then none else some i
  | none => none

/-- The dead command from bot.py after argument parsing, with the kill instant
killed_utc already resolved (microseconds since epoch): resolve the boss name,
reject unknown and fixed-schedule bosses without touching the store, otherwise
store killed_utc + interval hours and start a pipeline for it.  The result is
the reply, the updated store, and the pipeline armed (boss, instant), if any. -/
def dead (bosses : Registry) (sched : Store) (boss_part : String)
    (killed_utc : Int) : DeadReply × Store × Option (String × Int) :=
  match find_boss bosses boss_part with
  | none => (DeadReply.unknownBoss boss_part, sched, none)
  | some boss_key =>
      if schedTruthy (lookupBoss bosses boss_key) then
        (DeadReply.fixedSchedule boss_key, sched, none)
      else
        match intervalTruthy (lookupBoss bosses boss_key).interval with
        | none => (DeadReply.fixedSchedule boss_key, sched, none)
        | some interval =>
            let respawn_utc := killed_utc + interval * 3600000000
            (DeadReply.marked boss_key respawn_utc,
              storeSet sched boss_key respawn_utc, some (boss_key, respawn_utc))

-- ===========================================================================
-- The boss listing command (boss_list) and the pre-alert setting
-- ===========================================================================

/-- Insert an entry into a list sorted ascending by instant, after all entries
with a strictly smaller or equal instant (stable ascending sort step). -/
def insertByTime (p : String × Int) : List (String × Int) → List (String × Int)
  | [] => [p]
  | q :: rest => if p.2 < q.2 then p :: q :: rest else q :: insertByTime p rest

/-- Sort entries ascending by instant (with_timers.sort(key=lambda x: x[1])). -/
def sortByTime (l : List (String × Int)) : List (String × Int) :=
  l.foldr insertByTime []

/-- Iteration body of boss_list: walk the registry keys; a scheduled boss whose
instant is still in the future is collected for display, an expired one is
deleted from the schedule on the spot. -/
def bossListGo (now : Int) :
    List String → List (String × Int) × Store → List (String × Int) × Store
  | [], acc => acc
  | b :: rest, (wt, sched) =>
      match storeGet? sched b with
      | some rt =>
          if now < rt then bossListGo now rest (wt ++ [(b, rt)], sched)
          else bossListGo now rest (wt, storeDel sched b)
      | none => bossListGo now rest (wt, sched)

/-- The boss command: collect and sort the upcoming respawns, returning the
displayed list and the (possibly purged) schedule. -/
def boss_list (registry : List String) (now : Int) (sched : Store) :
    List (String × Int) × Store :=
  (sortByTime (bossListGo now registry ([], sched)).1,
    (bossListGo now registry ([], sched)).2)

/-- The boss soon variant: same walk, but only the first 5 sorted entries are
displayed (with_timers[:5]). -/
def boss_list_soon (registry : List String) (now : Int) (sched : Store) :
    List (String × Int) × Store :=
  ((boss_list registry now sched).1.take 5, (boss_list registry now sched).2)

/-- Default pre-alert lead time in minutes. -/
def PRE_ALERT_MINUTES : Int := 10

/-- The setprealert command: a requested value below 1 minute is rejected and
the current value kept; otherwise the new value is adopted.  The flag reports
acceptance. -/
def setprealert (current minutes : Int) : Int × Bool :=
  if minutes < 1 then (current, false) else (minutes, true)

-- ===========================================================================
-- Helper lemmas: calendar round trip
-- ===========================================================================

theorem shiftS_mono {a b : Int} (h0 : 0 ≤ a) (h : a ≤ b) : shiftS a ≤ shiftS b := by
  unfold shiftS
  omega

set_option maxRecDepth 8000 in
theorem boundary_eval : ∀ y : Fin 400,
    365 * (y.val : Int) ≤ shiftS (dayOfEra y.val) ∧
    shiftS (eraUpper y.val - 1) ≤ 365 * y.val + 364 ∧
    eraUpper y.val - dayOfEra y.val ≤ 366 := by decide

theorem doe_decomp (doe : Int) (h0 : 0 ≤ doe) (h1 : doe < 146097) :
    0 ≤ yoeOfDoe doe ∧ yoeOfDoe doe ≤ 399 ∧
    0 ≤ doyOfDoe doe ∧ doyOfDoe doe ≤ 365 := by
  classical
  set P : Nat → Prop := fun y => dayOfEra (y : Int) ≤ doe with hP
  have hP0 : P 0 := by
    simp only [hP, Nat.cast_zero]
    unfold dayOfEra
    omega
  set y0 := Nat.findGreatest P 399 with hy0
  have hspec : P y0 := Nat.findGreatest_spec (Nat.zero_le 399) hP0
  have hle : y0 ≤ 399 := Nat.findGreatest_le 399
  have hlow : dayOfEra (y0 : Int) ≤ doe := hspec
  have hupper : doe < eraUpper (y0 : Int) := by
    by_cases hcase : y0 = 399
    · unfold eraUpper
      rw [hcase]
      norm_num
      omega
    · have hlt : y0 < 399 := Nat.lt_of_le_of_ne hle hcase
      have hng : ¬P (y0 + 1) :=
        Nat.findGreatest_is_greatest (Nat.lt_succ_self y0) (by omega)
      simp only [hP] at hng
      push_neg at hng
      unfold eraUpper
      rw [if_neg (by omega)]
      have hc : ((y0 + 1 : Nat) : Int) = (y0 : Int) + 1 := by push_cast; ring
      rw [hc] at hng
      omega
  have hb := boundary_eval ⟨y0, by omega⟩
  simp only at hb
  obtain ⟨hb1, hb2, hb3⟩ := hb
  have hpos : 0 ≤ dayOfEra (y0 : Int) := by
    unfold dayOfEra
    have hy : 0 ≤ (y0 : Int) := by positivity
    omega
  have hr1 : 365 * (y0 : Int) ≤ shiftS doe := le_trans hb1 (shiftS_mono hpos hlow)
  have hr2 : shiftS doe ≤ 365 * (y0 : Int) + 364 :=
    le_trans (shiftS_mono h0 (by omega)) hb2
  have hyoe : yoeOfDoe doe = (y0 : Int) := by
    unfold yoeOfDoe
    omega
  refine ⟨by omega, by omega, ?_, ?_⟩
  · unfold doyOfDoe
    rw [hyoe]
    omega
  · unfold doyOfDoe
    rw [hyoe]
    omega

theorem mp_recover (mp : Int) (h0 : 0 ≤ mp) (h1 : mp ≤ 11) :
    mp + (if mp < 10 then 3 else -9) +
      (if 2 < mp + (if mp < 10 then 3 else -9) then -3 else 9) = mp := by
  split_ifs <;> omega

theorem civil_roundtrip (z : Int) :
    daysFromCivil (civilFromDays z).1 (civilFromDays z).2.1 (civilFromDays z).2.2 = z := by
  have h0 : 0 ≤ (z + 719468) % 146097 := Int.emod_nonneg _ (by decide)
  have h1 : (z + 719468) % 146097 < 146097 := Int.emod_lt_of_pos _ (by decide)
  obtain ⟨hy0, hy1, hd0, hd1⟩ := doe_decomp _ h0 h1
  have hmp0 : 0 ≤ mpOfDoy (doyOfDoe ((z + 719468) % 146097)) := by
    unfold mpOfDoy
    omega
  have hmp1 : mpOfDoy (doyOfDoe ((z + 719468) % 146097)) ≤ 11 := by
    unfold mpOfDoy
    omega
  unfold civilFromDays daysFromCivil
  dsimp only
  rw [mp_recover _ hmp0 hmp1]
  rw [add_sub_cancel_right]
  have hmod : (yoeOfDoe ((z + 719468) % 146097) + (z + 719468) / 146097 * 400) % 400
      = yoeOfDoe ((z + 719468) % 146097) := by omega
  have hdiv : (yoeOfDoe ((z + 719468) % 146097) + (z + 719468) / 146097 * 400) / 400
      = (z + 719468) / 146097 := by omega
  rw [hmod, hdiv]
  unfold doyOfDoe at hd0 hd1 ⊢
  unfold dayOfEra at hd0 hd1 ⊢
  omega

theorem iso_roundtrip (t : Int) : fromisoformat (isoformat t) = t := by
  unfold isoformat fromisoformat
  dsimp only
  simp only [Option.getD_some]
  rw [civil_roundtrip]
  omega

theorem load_save_id (s : Store) :
    load_respawn_data (save_respawn_data s) = s := by
  induction s with
  | nil => rfl
  | cons p rest ih =>
      unfold load_respawn_data save_respawn_data at ih ⊢
      simp only [List.map_cons]
      rw [iso_roundtrip]
      rw [ih]

-- ===========================================================================
-- Helper lemmas: store operations
-- ===========================================================================

theorem storeGet?_set_self (s : Store) (b : String) (v : Int) :
    storeGet? (storeSet s b v) b = some v := by
  induction s with
  | nil => simp [storeSet, storeGet?]
  | cons p rest ih =>
      obtain ⟨k, w⟩ := p
      unfold storeSet
      by_cases h : k = b
      · rw [if_pos h]
        unfold storeGet?
        rw [if_pos h]
      · rw [if_neg h]
        unfold storeGet?
        rw [if_neg h]
        exact ih

theorem storeGet?_set_ne (s : Store) (b b2 : String) (v : Int) (h : b2 ≠ b) :
    storeGet? (storeSet s b2 v) b = storeGet? s b := by
  induction s with
  | nil => simp [storeSet, storeGet?, h]
  | cons p rest ih =>
      obtain ⟨k, w⟩ := p
      unfold storeSet
      by_cases hk : k = b2
      · rw [if_pos hk]
        unfold storeGet?
        rw [if_neg (by rw [hk]; exact h), if_neg (by rw [hk]; exact h)]
      · rw [if_neg hk]
        unfold storeGet?
        by_cases hb : k = b
        · rw [if_pos hb, if_pos hb]
        · rw [if_neg hb, if_neg hb]
          exact ih

theorem storeGet?_del_ne (s : Store) (b b2 : String) (h : b2 ≠ b) :
    storeGet? (storeDel s b2) b = storeGet? s b := by
  induction s with
  | nil => rfl
  | cons p rest ih =>
      obtain ⟨k, w⟩ := p
      simp only [storeDel]
      by_cases hk : k = b2
      · rw [if_pos hk]
        rw [ih]
        simp only [storeGet?]
        rw [if_neg (by rw [hk]; exact h)]
      · rw [if_neg hk]
        simp only [storeGet?]
        by_cases hb : k = b
        · rw [if_pos hb, if_pos hb]
        · rw [if_neg hb, if_neg hb]
          exact ih

theorem storeGet?_del_self (s : Store) (b : String) :
    storeGet? (storeDel s b) b = none := by
  induction s with
  | nil => rfl
  | cons p rest ih =>
      obtain ⟨k, w⟩ := p
      unfold storeDel
      by_cases hk : k = b
      · rw [if_pos hk]
        exact ih
      · rw [if_neg hk]
        unfold storeGet?
        rw [if_neg hk]
        exact ih

theorem storeGet?_mem (s : Store) (b : String) (v : Int)
    (h : storeGet? s b = some v) : (b, v) ∈ s := by
  induction s with
  | nil => simp [storeGet?] at h
  | cons p rest ih =>
      obtain ⟨k, w⟩ := p
      simp only [storeGet?] at h
      by_cases hk : k = b
      · rw [if_pos hk] at h
        subst hk
        injection h with hw
        subst hw
        exact List.mem_cons_self _ _
      · rw [if_neg hk] at h
        exact List.mem_cons_of_mem _ (ih h)

-- ===========================================================================
-- C5
-- ===========================================================================

/-- C5: for an entity with configured interval I hours and logged kill instant
K, the dead command stores exactly K + I hours for that entity, and persisting
the schedule then loading it back yields every entry unchanged: the ISO-8601
serialization round trip loses no precision. -/
theorem dead_respawn_exact_and_persistent (bosses : Registry) (sched : Store)
    (boss_part k : String) (killed I : Int)
    (hf : find_boss bosses boss_part = some k)
    (hs : schedTruthy (lookupBoss bosses k) = false)
    (hi : (lookupBoss bosses k).interval = some I) (hI : I ≠ 0) :
    storeGet? (dead bosses sched boss_part killed).2.1 k =
      some (killed + I * 3600000000) ∧
    ∀ s : Store, load_respawn_data (save_respawn_data s) = s := by
  have hd : dead bosses sched boss_part killed =
      (DeadReply.marked k (killed + I * 3600000000),
        storeSet sched k (killed + I * 3600000000),
        some (k, killed + I * 3600000000)) := by
    unfold dead
    rw [hf]
    dsimp only
    simp only [hs, Bool.false_eq_true, if_false, hi, intervalTruthy]
    rw [if_neg hI]
  rw [hd]
  exact ⟨storeGet?_set_self sched k _, load_save_id⟩

/-- Witness for C5 at a concrete registry, boss and kill instant. -/
theorem dead_respawn_exact_and_persistent_witness :
    storeGet? (dead [("venatus", ⟨some 10, none⟩)] [] "venatus" 0).2.1 "venatus" =
      some (0 + 10 * 3600000000) ∧
    ∀ s : Store, load_respawn_data (save_respawn_data s) = s :=
  dead_respawn_exact_and_persistent [("venatus", ⟨some 10, none⟩)] [] "venatus"
    "venatus" 0 10 (by decide) (by decide) (by decide) (by decide)

-- ===========================================================================
-- C6
-- ===========================================================================

/-- C6: logging a respawn for a name that resolves to no known entity reports
an unknown-entity error, leaves the respawn store unchanged and starts no
pipeline; logging one for an entity whose registry definition carries a fixed
schedule reports a fixed-schedule error, leaves the store unchanged and starts
no pipeline. -/
theorem dead_error_paths (bosses : Registry) (sched : Store)
    (boss_part : String) (killed : Int) :
    (find_boss bosses boss_part = none →
      dead bosses sched boss_part killed =
        (DeadReply.unknownBoss boss_part, sched, none)) ∧
    (∀ k, find_boss bosses boss_part = some k →
      schedTruthy (lookupBoss bosses k) = true →
      dead bosses sched boss_part killed =
        (DeadReply.fixedSchedule k, sched, none)) := by
  constructor
  · intro h
    unfold dead
    rw [h]
  · intro k hk hs
    unfold dead
    rw [hk]
    dsimp only
    simp [hs]

/-- Witness for C6: an unknown name and a fixed-schedule-only entity, against a
concrete registry. -/
theorem dead_error_paths_witness :
    dead [("venatus", ⟨some 10, none⟩), ("clemantis", ⟨none, some ["Monday 11:30"]⟩)]
        [("venatus", 77)] "zzz" 0 =
      (DeadReply.unknownBoss "zzz", [("venatus", 77)], none) ∧
    dead [("venatus", ⟨some 10, none⟩), ("clemantis", ⟨none, some ["Monday 11:30"]⟩)]
        [("venatus", 77)] "clemantis" 0 =
      (DeadReply.fixedSchedule "clemantis", [("venatus", 77)], none) :=
  ⟨(dead_error_paths [("venatus", ⟨some 10, none⟩),
      ("clemantis", ⟨none, some ["Monday 11:30"]⟩)] [("venatus", 77)] "zzz" 0).1
      (by decide),
    (dead_error_paths [("venatus", ⟨some 10, none⟩),
      ("clemantis", ⟨none, some ["Monday 11:30"]⟩)] [("venatus", 77)] "clemantis" 0).2
      "clemantis" (by decide) (by decide)⟩

-- ===========================================================================
-- C10
-- ===========================================================================

/-- C10: over a registry whose keys are lower-case (as the case-normalized
bosses.json keys are), a non-empty query resolves to an entity if and only if
its stripped lower-cased form is exactly a registry key or is a substring of
exactly one registry key; a partial name matching several keys, or none,
resolves to nothing. -/
theorem find_boss_resolution (bosses : Registry) (query : String)
    (hkeys : ∀ p ∈ bosses, lowerStr p.1 = p.1) (hq : query ≠ "") :
    (find_boss bosses query).isSome = true ↔
      (bosses.any (fun p => p.1 == lowerStr (stripStr query)) = true ∨
       (bosses.filter
          (fun p => substrOf (lowerStr (stripStr query)) p.1)).length = 1) := by
  unfold find_boss
  rw [if_neg hq]
  dsimp only
  have hfilter :
      bosses.filter (fun p => substrOf (lowerStr (stripStr query)) (lowerStr p.1))
        = bosses.filter (fun p => substrOf (lowerStr (stripStr query)) p.1) := by
    apply List.filter_congr
    intro p hp
    rw [hkeys p hp]
  by_cases hany : bosses.any (fun p => p.1 == lowerStr (stripStr query)) = true
  · rw [if_pos hany]
    simp [hany]
  · rw [if_neg hany]
    rw [hfilter]
    rcases hres : bosses.filter (fun p => substrOf (lowerStr (stripStr query)) p.1)
      with _ | ⟨m, _ | ⟨m2, rest2⟩⟩
    · simp only [hany, false_or]
      rw [hres]
      simp
    · simp only [hany, false_or]
      rw [hres]
      simp
    · simp only [hany, false_or]
      rw [hres]
      simp

/-- Witness for C10 at a concrete two-entry registry and a partial query. -/
theorem find_boss_resolution_witness :
    (find_boss [("venatus", ⟨some 10, none⟩), ("baron braudmore", ⟨some 8, none⟩)]
        " Ven ").isSome = true ↔
      ([("venatus", (⟨some 10, none⟩ : BossDef)),
          ("baron braudmore", ⟨some 8, none⟩)].any
          (fun p => p.1 == lowerStr (stripStr " Ven ")) = true ∨
       ([("venatus", (⟨some 10, none⟩ : BossDef)),
          ("baron braudmore", ⟨some 8, none⟩)].filter
          (fun p => substrOf (lowerStr (stripStr " Ven ")) p.1)).length = 1) :=
  find_boss_resolution
    [("venatus", ⟨some 10, none⟩), ("baron braudmore", ⟨some 8, none⟩)] " Ven "
    (by decide) (by decide)

-- ===========================================================================
-- Helper lemmas: single-pipeline traces
-- ===========================================================================

theorem announce_trace_future (t0 instant pre : Int) (b : String)
    (hpre : 0 < pre) (h : t0 < instant - 60 * pre) :
    announce_boss_trace t0 b instant pre =
      [(b, "pre-alert", instant - 60 * pre), (b, "respawned", instant)] := by
  unfold announce_boss_trace spawnTask
  dsimp only
  rw [if_pos h]
  simp only [runTaskAux, fireTask]
  rw [max_eq_left (by omega)]

theorem announce_trace_late (t0 instant pre : Int) (b : String)
    (h : instant - 60 * pre ≤ t0) :
    announce_boss_trace t0 b instant pre = [(b, "respawned", max instant t0)] := by
  unfold announce_boss_trace spawnTask
  dsimp only
  rw [if_neg (by omega)]
  simp only [runTaskAux, fireTask]

-- ===========================================================================
-- C4
-- ===========================================================================

/-- C4 counterexample: a pipeline armed at time 100 with respawn instant 50
(already past) fires its respawned notification immediately at time 100, not at
the instant 50 the claim requires. -/
theorem pipeline_past_instant_counterexample :
    announce_boss_trace 100 "x" 50 10 = [("x", "respawned", 100)] ∧
    ("x", "respawned", (50 : Int)) ∉ announce_boss_trace 100 "x" 50 10 := by
  decide

/-- C4 (amended): for a pipeline armed at t0 with respawn instant and a
positive pre-alert of pre minutes: when the pre-alert instant is still in the
future the pipeline emits the pre-alert exactly at that instant and then the
respawned notification exactly at the respawn instant, the former strictly
earlier; when the pre-alert instant is already past, the pre-alert is skipped
and never fired late, and the respawned notification fires at the respawn
instant if it has not yet passed and immediately at arming time otherwise. -/
theorem pipeline_stage_timing (t0 instant pre : Int) (b : String)
    (hpre : 0 < pre) :
    (t0 < instant - 60 * pre →
      announce_boss_trace t0 b instant pre =
        [(b, "pre-alert", instant - 60 * pre), (b, "respawned", instant)] ∧
      instant - 60 * pre < instant) ∧
    (instant - 60 * pre ≤ t0 →
      announce_boss_trace t0 b instant pre = [(b, "respawned", max instant t0)]) := by
  constructor
  · intro h
    exact ⟨announce_trace_future t0 instant pre b hpre h, by omega⟩
  · intro h
    exact announce_trace_late t0 instant pre b h

/-- Witness for C4 at a concrete future arming and a concrete late resume. -/
theorem pipeline_stage_timing_witness :
    (announce_boss_trace 0 "venatus" 6060 10 =
        [("venatus", "pre-alert", 6060 - 60 * 10), ("venatus", "respawned", 6060)] ∧
      (6060 : Int) - 60 * 10 < 6060) ∧
    announce_boss_trace 6055 "venatus" 6060 10 =
      [("venatus", "respawned", max 6060 6055)] :=
  ⟨(pipeline_stage_timing 0 6060 10 "venatus" (by decide)).1 (by decide),
    (pipeline_stage_timing 6055 6060 10 "venatus" (by decide)).2 (by decide)⟩

-- ===========================================================================
-- C9
-- ===========================================================================

/-- C9: the pre-alert duration is validated: a requested value below one minute
is rejected and the previously configured value kept; an accepted value becomes
the pre-alert minutes used when computing the pre-alert instant of a
subsequently armed pipeline; the default is 10 minutes. -/
theorem setprealert_validation (current minutes : Int) :
    (minutes < 1 → setprealert current minutes = (current, false)) ∧
    (1 ≤ minutes → setprealert current minutes = (minutes, true)) ∧
    PRE_ALERT_MINUTES = 10 ∧
    (∀ t0 instant : Int, ∀ b : String, 1 ≤ minutes →
      t0 < instant - 60 * minutes →
      announce_boss_trace t0 b instant (setprealert current minutes).1 =
        [(b, "pre-alert", instant - 60 * minutes), (b, "respawned", instant)]) := by
  refine ⟨?_, ?_, rfl, ?_⟩
  · intro h
    unfold setprealert
    rw [if_pos h]
  · intro h
    unfold setprealert
    rw [if_neg (by omega)]
  · intro t0 instant b hm h
    have hfst : (setprealert current minutes).1 = minutes := by
      unfold setprealert
      rw [if_neg (by omega)]
    rw [hfst]
    exact announce_trace_future t0 instant minutes b (by omega) h

/-- Witness for C9: rejection of 0, acceptance of 5, and the accepted value
driving a concrete pipeline's pre-alert instant. -/
theorem setprealert_validation_witness :
    setprealert 10 0 = (10, false) ∧ setprealert 10 5 = (5, true) ∧
    announce_boss_trace 0 "venatus" 600 (setprealert 10 5).1 =
      [("venatus", "pre-alert", 600 - 60 * 5), ("venatus", "respawned", 600)] :=
  ⟨(setprealert_validation 10 0).1 (by decide),
    (setprealert_validation 10 5).2.1 (by decide),
    (setprealert_validation 10 5).2.2.2 0 600 "venatus" (by decide) (by decide)⟩

-- ===========================================================================
-- Helper lemmas: sorting and the boss_list walk
-- ===========================================================================

theorem insertByTime_mem (p x : String × Int) (l : List (String × Int))
    (h : x ∈ insertByTime p l) : x = p ∨ x ∈ l := by
  induction l with
  | nil => simpa [insertByTime] using h
  | cons q rest ih =>
      unfold insertByTime at h
      by_cases hc : p.2 < q.2
      · rw [if_pos hc] at h
        rcases List.mem_cons.mp h with h1 | h2
        · exact Or.inl h1
        · exact Or.inr h2
      · rw [if_neg hc] at h
        rcases List.mem_cons.mp h with h1 | h2
        · exact Or.inr (List.mem_cons.mpr (Or.inl h1))
        · rcases ih h2 with h3 | h4
          · exact Or.inl h3
          · exact Or.inr (List.mem_cons.mpr (Or.inr h4))

theorem insertByTime_pairwise (p : String × Int) (l : List (String × Int))
    (h : List.Pairwise (fun a c => a.2 ≤ c.2) l) :
    List.Pairwise (fun a c => a.2 ≤ c.2) (insertByTime p l) := by
  induction l with
  | nil => simp [insertByTime]
  | cons q rest ih =>
      rcases List.pairwise_cons.mp h with ⟨hq, hrest⟩
      unfold insertByTime
      by_cases hc : p.2 < q.2
      · rw [if_pos hc]
        refine List.pairwise_cons.mpr ⟨?_, h⟩
        intro x hx
        rcases List.mem_cons.mp hx with h1 | h2
        · rw [h1]
          omega
        · have := hq x h2
          omega
      · rw [if_neg hc]
        refine List.pairwise_cons.mpr ⟨?_, ih hrest⟩
        intro x hx
        rcases insertByTime_mem p x rest hx with h1 | h2
        · rw [h1]
          omega
        · exact hq x h2

theorem sortByTime_pairwise :
    ∀ l : List (String × Int),
      List.Pairwise (fun a c => a.2 ≤ c.2) (sortByTime l)
  | [] => by simp [sortByTime]
  | p :: rest => by
      have ih := sortByTime_pairwise rest
      unfold sortByTime at ih ⊢
      simp only [List.foldr_cons]
      exact insertByTime_pairwise p _ ih

theorem bossListGo_sched_frame (now : Int) (registry : List String)
    (sched : Store) (h : ∀ p ∈ sched, now < p.2) :
    ∀ wt, (bossListGo now registry (wt, sched)).2 = sched := by
  induction registry with
  | nil =>
      intro wt
      rfl
  | cons b rest ih =>
      intro wt
      unfold bossListGo
      rcases hg : storeGet? sched b with _ | rt
      · simp only [hg]
        exact ih wt
      · simp only [hg]
        have hrt : now < rt := h (b, rt) (storeGet?_mem sched b rt hg)
        rw [if_pos hrt]
        exact ih (wt ++ [(b, rt)])

-- ===========================================================================
-- C7
-- ===========================================================================

/-- C7: listing pending respawns always returns the displayed entries in
non-decreasing instant order whatever order the store holds them in, and the
soon variant displays exactly the first 5 entries of that ascending order. -/
theorem boss_list_sorted (registry : List String) (now : Int) (sched : Store) :
    List.Pairwise (fun a c => a.2 ≤ c.2) (boss_list registry now sched).1 ∧
    (boss_list_soon registry now sched).1 =
      (boss_list registry now sched).1.take 5 := by
  constructor
  · unfold boss_list
    dsimp only
    exact sortByTime_pairwise _
  · rfl

-- ===========================================================================
-- C8
-- ===========================================================================

/-- C8 counterexample: listing is not a pure read on every store state; with an
expired record in the store the boss command deletes it, so the stored record
set after listing differs from the one before. -/
theorem boss_list_mutates_counterexample :
    (boss_list ["venatus"] 10 [("venatus", 5)]).2 = [] ∧
    (boss_list ["venatus"] 10 [("venatus", 5)]).2 ≠ [("venatus", 5)] := by
  decide

/-- C8 (amended): the listing walk is a pure read on every store state whose
records all lie in the future; only expired records (instant not beyond now)
are removed by the walk, every other record is left untouched. -/
theorem boss_list_preserves_future_store (registry : List String) (now : Int)
    (sched : Store) (h : ∀ p ∈ sched, now < p.2) :
    (boss_list registry now sched).2 = sched := by
  unfold boss_list
  dsimp only
  exact bossListGo_sched_frame now registry sched h []

/-- Witness for C8 on a concrete all-future store. -/
theorem boss_list_preserves_future_store_witness :
    (boss_list ["venatus"] 10 [("venatus", 100)]).2 = [("venatus", 100)] :=
  boss_list_preserves_future_store ["venatus"] 10 [("venatus", 100)] (by decide)

-- ===========================================================================
-- C1 and C2 (code evaluation at the failing inputs)
-- ===========================================================================

/-- C1 (code evaluation at the failing input): arming boss x with instant 6060
and re-arming it with 7200 at time 10, long before 6060 elapses, leaves two
live pipelines for x, and the run delivers two respawned notifications: one at
the superseded instant 6060 and one at 7200.  The old pipeline is never
cancelled, contradicting the claimed single-live-pipeline invariant. -/
theorem no_cancellation_duplicate_respawn :
    (simRun 2 (initSim 10 [(0, "x", 6060), (10, "x", 7200)])).tasks.map
        PipeTask.boss = ["x", "x"] ∧
    (simRun 6 (initSim 10 [(0, "x", 6060), (10, "x", 7200)])).log =
      [("x", "pre-alert", 5460), ("x", "respawned", 6060),
        ("x", "pre-alert", 6600), ("x", "respawned", 7200)] := by
  decide

/-- C2 (code evaluation at the failing input): after the re-arm the store
record for x is 7200, owned by the second pipeline; the superseded first
pipeline keeps notifying after its supersession, and its terminal cleanup at
time 6060 deletes the record 7200 it does not own while the second pipeline is
still live (the cleanup tests only key membership, never instant equality). -/
theorem stale_pipeline_deletes_newer_record :
    storeGet? (simRun 2 (initSim 10 [(0, "x", 6060), (10, "x", 7200)])).sched
        "x" = some 7200 ∧
    (simRun 4 (initSim 10 [(0, "x", 6060), (10, "x", 7200)])).log =
      [("x", "pre-alert", 5460), ("x", "respawned", 6060)] ∧
    (simRun 4 (initSim 10 [(0, "x", 6060), (10, "x", 7200)])).sched = [] ∧
    (simRun 4 (initSim 10 [(0, "x", 6060), (10, "x", 7200)])).tasks =
      [⟨"x", 7200, Phase.sleepPre, 6600⟩] := by
  decide

-- ===========================================================================
-- Helper lemmas: the on_ready walk
-- ===========================================================================

theorem spawnTask_boss (t0 : Int) (b : String) (instant pre : Int) :
    (spawnTask t0 b instant pre).boss = b := by
  unfold spawnTask
  dsimp only
  split <;> rfl

theorem onReadyGo_pre (now : Int) (l : List (String × Int)) (s : Sim) :
    (onReadyGo now l s).pre = s.pre := by
  induction l generalizing s with
  | nil => rfl
  | cons p rest ih =>
      obtain ⟨b, t⟩ := p
      unfold onReadyGo
      by_cases h : now < t
      · rw [if_pos h, ih]
        rfl
      · rw [if_neg h, ih]
        rfl

theorem onReadyGo_log (now : Int) (l : List (String × Int)) (s : Sim) :
    (onReadyGo now l s).log = s.log := by
  induction l generalizing s with
  | nil => rfl
  | cons p rest ih =>
      obtain ⟨b, t⟩ := p
      unfold onReadyGo
      by_cases h : now < t
      · rw [if_pos h, ih]
        rfl
      · rw [if_neg h, ih]
        rfl

theorem onReadyGo_script (now : Int) (l : List (String × Int)) (s : Sim) :
    (onReadyGo now l s).script = s.script := by
  induction l generalizing s with
  | nil => rfl
  | cons p rest ih =>
      obtain ⟨b, t⟩ := p
      unfold onReadyGo
      by_cases h : now < t
      · rw [if_pos h, ih]
        rfl
      · rw [if_neg h, ih]
        rfl

theorem onReadyGo_tasks_from (now : Int) (l : List (String × Int)) (s : Sim)
    (tk : PipeTask) (h : tk ∈ (onReadyGo now l s).tasks) :
    tk ∈ s.tasks ∨ tk.boss ∈ l.map Prod.fst := by
  induction l generalizing s with
  | nil => exact Or.inl h
  | cons p rest ih =>
      obtain ⟨b, t⟩ := p
      unfold onReadyGo at h
      by_cases hc : now < t
      · rw [if_pos hc] at h
        rcases ih _ h with h1 | h2
        · have h1' : tk ∈ s.tasks ++ [spawnTask now b t s.pre] := h1
          rcases List.mem_append.mp h1' with h3 | h4
          · exact Or.inl h3
          · have he : tk = spawnTask now b t s.pre := by simpa using h4
            right
            rw [he, spawnTask_boss]
            simp
        · right
          simp only [List.map_cons]
          exact List.mem_cons_of_mem _ h2
      · rw [if_neg hc] at h
        rcases ih _ h with h1 | h2
        · exact Or.inl h1
        · right
          simp only [List.map_cons]
          exact List.mem_cons_of_mem _ h2

theorem onReadyGo_tasks_mono (now : Int) (l : List (String × Int)) (s : Sim)
    (tk : PipeTask) (h : tk ∈ s.tasks) : tk ∈ (onReadyGo now l s).tasks := by
  induction l generalizing s with
  | nil => exact h
  | cons p rest ih =>
      obtain ⟨b, t⟩ := p
      unfold onReadyGo
      by_cases hc : now < t
      · rw [if_pos hc]
        exact ih _ (List.mem_append.mpr (Or.inl h))
      · rw [if_neg hc]
        exact ih _ h

theorem onReadyGo_get_pres (now : Int) (l : List (String × Int)) (s : Sim)
    (b : String) (hb : b ∉ l.map Prod.fst) :
    storeGet? (onReadyGo now l s).sched b = storeGet? s.sched b := by
  induction l generalizing s with
  | nil => rfl
  | cons p rest ih =>
      obtain ⟨b2, t⟩ := p
      have hne : b2 ≠ b := by
        intro he
        exact hb (by simp [he])
      have hb2 : b ∉ rest.map Prod.fst := by
        intro hr
        exact hb (by simp [hr])
      unfold onReadyGo
      by_cases hc : now < t
      · rw [if_pos hc, ih _ hb2]
        exact storeGet?_set_ne s.sched b b2 t hne
      · rw [if_neg hc, ih _ hb2]
        exact storeGet?_del_ne s.sched b b2 hne

theorem onReadyGo_append (now : Int) (l1 l2 : List (String × Int)) (s : Sim) :
    onReadyGo now (l1 ++ l2) s = onReadyGo now l2 (onReadyGo now l1 s) := by
  induction l1 generalizing s with
  | nil => rfl
  | cons p rest ih =>
      obtain ⟨b, t⟩ := p
      simp only [List.cons_append]
      have h1 : onReadyGo now ((b, t) :: (rest ++ l2)) s =
          onReadyGo now (rest ++ l2)
            (if now < t then schedule_boss now b t s else delBoss b s) := rfl
      have h2 : onReadyGo now ((b, t) :: rest) s =
          onReadyGo now rest
            (if now < t then schedule_boss now b t s else delBoss b s) := rfl
      rw [h1, h2]
      exact ih _

-- ===========================================================================
-- Helper lemmas: notifications originate from existing tasks or scripted arms
-- ===========================================================================

theorem popMinTask_mem (l : List PipeTask) (tk : PipeTask)
    (rest : List PipeTask) (h : popMinTask l = some (tk, rest)) :
    tk ∈ l ∧ ∀ x ∈ rest, x ∈ l := by
  induction l generalizing tk rest with
  | nil => simp [popMinTask] at h
  | cons a as ih =>
      unfold popMinTask at h
      rcases hp : popMinTask as with _ | ⟨m, rest2⟩
      · rw [hp] at h
        dsimp only at h
        simp only [Option.some.injEq, Prod.mk.injEq] at h
        obtain ⟨h1, h2⟩ := h
        subst h1
        subst h2
        refine ⟨List.mem_cons_self _ _, ?_⟩
        intro x hx
        simp at hx
      · rw [hp] at h
        dsimp only at h
        by_cases hc : a.wake ≤ m.wake
        · rw [if_pos hc] at h
          simp only [Option.some.injEq, Prod.mk.injEq] at h
          obtain ⟨h1, h2⟩ := h
          subst h1
          subst h2
          refine ⟨List.mem_cons_self _ _, ?_⟩
          intro x hx
          exact List.mem_cons_of_mem _ hx
        · rw [if_neg hc] at h
          simp only [Option.some.injEq, Prod.mk.injEq] at h
          obtain ⟨h1, h2⟩ := h
          subst h1
          subst h2
          obtain ⟨hm, hsub⟩ := ih m rest2 hp
          refine ⟨List.mem_cons_of_mem _ hm, ?_⟩
          intro x hx
          rcases List.mem_cons.mp hx with h3 | h4
          · rw [h3]
            exact List.mem_cons_self _ _
          · exact List.mem_cons_of_mem _ (hsub x h4)

theorem fireTask_emission_boss (tk : PipeTask) :
    (fireTask tk).1.1 = tk.boss := by
  obtain ⟨b, i, ph, w⟩ := tk
  cases ph <;> rfl

theorem fireTask_next_boss (tk tk2 : PipeTask)
    (h : (fireTask tk).2.1 = some tk2) : tk2.boss = tk.boss := by
  obtain ⟨b, i, ph, w⟩ := tk
  cases ph
  · simp only [fireTask] at h
    injection h with h2
    rw [← h2]
  · simp only [fireTask] at h
    exact Option.noConfusion h

theorem fireMin_log (s : Sim) (e : String × String × Int)
    (h : e ∈ (fireMin s).log) :
    e ∈ s.log ∨ e.1 ∈ s.tasks.map PipeTask.boss := by
  unfold fireMin at h
  rcases hp : popMinTask s.tasks with _ | ⟨tk, trest⟩
  · rw [hp] at h
    exact Or.inl h
  · rw [hp] at h
    dsimp only at h
    rcases hf : fireTask tk with ⟨e2, nxt, clean⟩
    rw [hf] at h
    dsimp only at h
    have hlog : e ∈ s.log ++ [e2] := by
      split at h
      · exact h
      · exact h
    rcases List.mem_append.mp hlog with h1 | h2
    · exact Or.inl h1
    · have he : e = e2 := by simpa using h2
      have hb : e2.1 = tk.boss := by
        have hfb := fireTask_emission_boss tk
        rw [hf] at hfb
        exact hfb
      right
      rw [he, hb]
      exact List.mem_map.mpr ⟨tk, (popMinTask_mem s.tasks tk trest hp).1, rfl⟩

theorem fireMin_taskBoss (s : Sim) (b : String)
    (h : b ∈ (fireMin s).tasks.map PipeTask.boss) :
    b ∈ s.tasks.map PipeTask.boss := by
  unfold fireMin at h
  rcases hp : popMinTask s.tasks with _ | ⟨tk, trest⟩
  · rw [hp] at h
    exact h
  · rw [hp] at h
    dsimp only at h
    rcases hf : fireTask tk with ⟨e2, nxt, clean⟩
    rw [hf] at h
    dsimp only at h
    obtain ⟨htk, hsub⟩ := popMinTask_mem s.tasks tk trest hp
    have htasks : b ∈ (match nxt with
        | some tk2 => trest ++ [tk2]
        | none => trest).map PipeTask.boss := by
      split at h
      · exact h
      · exact h
    rcases nxt with _ | tk2
    · rcases List.mem_map.mp htasks with ⟨x, hx, hbx⟩
      exact List.mem_map.mpr ⟨x, hsub x hx, hbx⟩
    · rcases List.mem_map.mp htasks with ⟨x, hx, hbx⟩
      rcases List.mem_append.mp hx with h3 | h4
      · exact List.mem_map.mpr ⟨x, hsub x h3, hbx⟩
      · have hx2 : x = tk2 := by simpa using h4
        have hb2 : tk2.boss = tk.boss := fireTask_next_boss tk tk2 (by rw [hf])
        rw [← hbx, hx2, hb2]
        exact List.mem_map.mpr ⟨tk, htk, rfl⟩

theorem fireMin_script (s : Sim) : (fireMin s).script = s.script := by
  unfold fireMin
  rcases hp : popMinTask s.tasks with _ | ⟨tk, trest⟩
  · rfl
  · dsimp only
    rcases hf : fireTask tk with ⟨e2, nxt, clean⟩
    dsimp only
    split
    · rfl
    · rfl

theorem simStep_log (s : Sim) (e : String × String × Int)
    (h : e ∈ (simStep s).log) :
    e ∈ s.log ∨ e.1 ∈ s.tasks.map PipeTask.boss := by
  unfold simStep at h
  rcases hs : s.script with _ | ⟨⟨t, b2, ti⟩, rest⟩ <;> rw [hs] at h <;>
    rcases hp : popMinTask s.tasks with _ | ⟨tk, trest⟩ <;> rw [hp] at h <;>
    dsimp only at h
  · exact Or.inl h
  · exact fireMin_log s e h
  · exact Or.inl h
  · by_cases hc : t ≤ tk.wake
    · rw [if_pos hc] at h
      exact Or.inl h
    · rw [if_neg hc] at h
      exact fireMin_log s e h

theorem simStep_taskBoss (s : Sim) (b : String)
    (h : b ∈ (simStep s).tasks.map PipeTask.boss) :
    b ∈ s.tasks.map PipeTask.boss ∨
      b ∈ s.script.map (fun x => x.2.1) := by
  unfold simStep at h
  rcases hs : s.script with _ | ⟨⟨t, b2, ti⟩, rest⟩ <;> rw [hs] at h <;>
    rcases hp : popMinTask s.tasks with _ | ⟨tk, trest⟩ <;> rw [hp] at h <;>
    dsimp only at h
  · exact Or.inl h
  · exact Or.inl (fireMin_taskBoss s b h)
  · have h2 : b ∈ (s.tasks ++ [spawnTask t b2 ti s.pre]).map PipeTask.boss := h
    rcases List.mem_map.mp h2 with ⟨x, hx, hbx⟩
    rcases List.mem_append.mp hx with h3 | h4
    · exact Or.inl (List.mem_map.mpr ⟨x, h3, hbx⟩)
    · have hx2 : x = spawnTask t b2 ti s.pre := by simpa using h4
      right
      rw [← hbx, hx2, spawnTask_boss]
      simp
  · by_cases hc : t ≤ tk.wake
    · rw [if_pos hc] at h
      have h2 : b ∈ (s.tasks ++ [spawnTask t b2 ti s.pre]).map PipeTask.boss := h
      rcases List.mem_map.mp h2 with ⟨x, hx, hbx⟩
      rcases List.mem_append.mp hx with h3 | h4
      · exact Or.inl (List.mem_map.mpr ⟨x, h3, hbx⟩)
      · have hx2 : x = spawnTask t b2 ti s.pre := by simpa using h4
        right
        rw [← hbx, hx2, spawnTask_boss]
        simp
    · rw [if_neg hc] at h
      exact Or.inl (fireMin_taskBoss s b h)

theorem simStep_script (s : Sim) (x : Int × String × Int)
    (h : x ∈ (simStep s).script) : x ∈ s.script := by
  unfold simStep at h
  rcases hs : s.script with _ | ⟨⟨t, b2, ti⟩, rest⟩ <;> rw [hs] at h <;>
    rcases hp : popMinTask s.tasks with _ | ⟨tk, trest⟩ <;> rw [hp] at h <;>
    dsimp only at h
  · rw [hs] at h
    exact h
  · rw [fireMin_script, hs] at h
    exact h
  · have h2 : x ∈ rest := h
    exact List.mem_cons_of_mem _ h2
  · by_cases hc : t ≤ tk.wake
    · rw [if_pos hc] at h
      have h2 : x ∈ rest := h
      exact List.mem_cons_of_mem _ h2
    · rw [if_neg hc] at h
      rw [fireMin_script, hs] at h
      exact h

theorem simRun_log (n : Nat) (s : Sim) (e : String × String × Int)
    (h : e ∈ (simRun n s).log) :
    e ∈ s.log ∨ e.1 ∈ s.tasks.map PipeTask.boss ∨
      e.1 ∈ s.script.map (fun x => x.2.1) := by
  induction n generalizing s with
  | zero => exact Or.inl h
  | succ n ih =>
      rcases ih (simStep s) h with h1 | h2 | h3
      · rcases simStep_log s e h1 with h4 | h5
        · exact Or.inl h4
        · exact Or.inr (Or.inl h5)
      · rcases simStep_taskBoss s e.1 h2 with h4 | h5
        · exact Or.inr (Or.inl h4)
        · exact Or.inr (Or.inr h5)
      · rcases List.mem_map.mp h3 with ⟨x, hx, hbx⟩
        exact Or.inr (Or.inr (List.mem_map.mpr ⟨x, simStep_script s x hx, hbx⟩))

-- ===========================================================================
-- C3
-- ===========================================================================

/-- C3: startup reconciliation.  For every record (b, t) of the loaded
schedule: if its instant is in the past, on_ready deletes the record and no
notification of any stage is ever emitted for that entity by the resumed
engine; if its instant is in the future, the record is kept and a pipeline is
armed for it through the very same schedule_boss / spawnTask logic a fresh
kill-log event uses. -/
theorem on_ready_reconciliation (now pre t : Int) (saved : Store) (b : String)
    (hnodup : (saved.map Prod.fst).Nodup) (hmem : (b, t) ∈ saved) :
    (t < now →
      storeMem (on_ready now pre saved).sched b = false ∧
      ∀ n e, e ∈ (simRun n (on_ready now pre saved)).log → e.1 ≠ b) ∧
    (now < t →
      storeGet? (on_ready now pre saved).sched b = some t ∧
      spawnTask now b t pre ∈ (on_ready now pre saved).tasks) := by
  obtain ⟨l1, l2, hsplit⟩ := List.append_of_mem hmem
  subst hsplit
  have hmap : ((l1 ++ (b, t) :: l2).map Prod.fst) =
      l1.map Prod.fst ++ b :: l2.map Prod.fst := by simp
  rw [hmap] at hnodup
  rcases List.nodup_append.mp hnodup with ⟨h1, h2, hdisj⟩
  have hb2 : b ∉ l2.map Prod.fst := (List.nodup_cons.mp h2).1
  have hb1 : b ∉ l1.map Prod.fst := fun hin =>
    hdisj hin (List.mem_cons_self _ _)
  have hrun : on_ready now pre (l1 ++ (b, t) :: l2) =
      onReadyGo now ((b, t) :: l2)
        (onReadyGo now l1
          ⟨l1 ++ (b, t) :: l2, l1 ++ (b, t) :: l2, [], [], [], pre⟩) := by
    unfold on_ready
    rw [onReadyGo_append]
  constructor
  · intro hpast
    have hstep : onReadyGo now ((b, t) :: l2)
        (onReadyGo now l1
          ⟨l1 ++ (b, t) :: l2, l1 ++ (b, t) :: l2, [], [], [], pre⟩) =
        onReadyGo now l2
          (delBoss b
            (onReadyGo now l1
              ⟨l1 ++ (b, t) :: l2, l1 ++ (b, t) :: l2, [], [], [], pre⟩)) := by
      have hrfl : onReadyGo now ((b, t) :: l2)
          (onReadyGo now l1
            ⟨l1 ++ (b, t) :: l2, l1 ++ (b, t) :: l2, [], [], [], pre⟩) =
          onReadyGo now l2
            (if now < t then
              schedule_boss now b t
                (onReadyGo now l1
                  ⟨l1 ++ (b, t) :: l2, l1 ++ (b, t) :: l2, [], [], [], pre⟩)
            else
              delBoss b
                (onReadyGo now l1
                  ⟨l1 ++ (b, t) :: l2, l1 ++ (b, t) :: l2, [], [], [], pre⟩)) := rfl
      rw [hrfl, if_neg (by omega)]
    constructor
    · rw [hrun, hstep]
      unfold storeMem
      rw [onReadyGo_get_pres now l2 _ b hb2]
      have hdel : storeGet? (delBoss b
          (onReadyGo now l1
            ⟨l1 ++ (b, t) :: l2, l1 ++ (b, t) :: l2, [], [], [], pre⟩)).sched b
          = none := storeGet?_del_self _ b
      rw [hdel]
      rfl
    · intro n e he
      rw [hrun, hstep] at he
      rcases simRun_log n _ e he with hl | ht | hscr
      · rw [onReadyGo_log] at hl
        have : (delBoss b
            (onReadyGo now l1
              ⟨l1 ++ (b, t) :: l2, l1 ++ (b, t) :: l2, [], [], [], pre⟩)).log
            = [] := by
          rw [show (delBoss b
              (onReadyGo now l1
                ⟨l1 ++ (b, t) :: l2, l1 ++ (b, t) :: l2, [], [], [], pre⟩)).log
              = (onReadyGo now l1
                ⟨l1 ++ (b, t) :: l2, l1 ++ (b, t) :: l2, [], [], [], pre⟩).log
            from rfl]
          rw [onReadyGo_log]
        rw [this] at hl
        simp at hl
      · rcases List.mem_map.mp ht with ⟨tk, htk, hbe⟩
        rcases onReadyGo_tasks_from now l2 _ tk htk with h4 | h5
        · have h4' : tk ∈ (onReadyGo now l1
              ⟨l1 ++ (b, t) :: l2, l1 ++ (b, t) :: l2, [], [], [], pre⟩).tasks := h4
          rcases onReadyGo_tasks_from now l1 _ tk h4' with h6 | h7
          · simp at h6
          · intro hcontra
            rw [hcontra] at hbe
            rw [hbe] at h7
            exact hb1 h7
        · intro hcontra
          rw [hcontra] at hbe
          rw [hbe] at h5
          exact hb2 h5
      · have hsc : (onReadyGo now l2
            (delBoss b
              (onReadyGo now l1
                ⟨l1 ++ (b, t) :: l2, l1 ++ (b, t) :: l2, [], [], [], pre⟩))).script
            = [] := by
          rw [onReadyGo_script]
          rw [show (delBoss b
              (onReadyGo now l1
                ⟨l1 ++ (b, t) :: l2, l1 ++ (b, t) :: l2, [], [], [], pre⟩)).script
              = (onReadyGo now l1
                ⟨l1 ++ (b, t) :: l2, l1 ++ (b, t) :: l2, [], [], [], pre⟩).script
            from rfl]
          rw [onReadyGo_script]
        rw [hsc] at hscr
        simp at hscr
  · intro hfut
    have hstep : onReadyGo now ((b, t) :: l2)
        (onReadyGo now l1
          ⟨l1 ++ (b, t) :: l2, l1 ++ (b, t) :: l2, [], [], [], pre⟩) =
        onReadyGo now l2
          (schedule_boss now b t
            (onReadyGo now l1
              ⟨l1 ++ (b, t) :: l2, l1 ++ (b, t) :: l2, [], [], [], pre⟩)) := by
      have hrfl : onReadyGo now ((b, t) :: l2)
          (onReadyGo now l1
            ⟨l1 ++ (b, t) :: l2, l1 ++ (b, t) :: l2, [], [], [], pre⟩) =
          onReadyGo now l2
            (if now < t then
              schedule_boss now b t
                (onReadyGo now l1
                  ⟨l1 ++ (b, t) :: l2, l1 ++ (b, t) :: l2, [], [], [], pre⟩)
            else
              delBoss b
                (onReadyGo now l1
                  ⟨l1 ++ (b, t) :: l2, l1 ++ (b, t) :: l2, [], [], [], pre⟩)) := rfl
      rw [hrfl, if_pos hfut]
    constructor
    · rw [hrun, hstep]
      rw [onReadyGo_get_pres now l2 _ b hb2]
      exact storeGet?_set_self _ b t
    · rw [hrun, hstep]
      apply onReadyGo_tasks_mono
      have hpre : (onReadyGo now l1
          ⟨l1 ++ (b, t) :: l2, l1 ++ (b, t) :: l2, [], [], [], pre⟩).pre = pre :=
        onReadyGo_pre now l1 _
      show spawnTask now b t pre ∈
        (onReadyGo now l1
          ⟨l1 ++ (b, t) :: l2, l1 ++ (b, t) :: l2, [], [], [], pre⟩).tasks ++
          [spawnTask now b t
            (onReadyGo now l1
              ⟨l1 ++ (b, t) :: l2, l1 ++ (b, t) :: l2, [], [], [], pre⟩).pre]
      rw [hpre]
      exact List.mem_append.mpr (Or.inr (List.mem_cons_self _ _))

/-- Witness for C3: a stored past record gets purged silently while a stored
future record is re-armed with the standard pipeline. -/
theorem on_ready_reconciliation_witness :
    (storeMem (on_ready 100 10 [("x", 50), ("y", 200)]).sched "x" = false ∧
      ∀ n e, e ∈ (simRun n (on_ready 100 10 [("x", 50), ("y", 200)])).log →
        e.1 ≠ "x") ∧
    (storeGet? (on_ready 100 10 [("x", 50), ("y", 200)]).sched "y" = some 200 ∧
      spawnTask 100 "y" 200 10 ∈ (on_ready 100 10 [("x", 50), ("y", 200)]).tasks) :=
  ⟨(on_ready_reconciliation 100 10 50 [("x", 50), ("y", 200)] "x" (by decide)
      (by decide)).1 (by decide),
    (on_ready_reconciliation 100 10 200 [("x", 50), ("y", 200)] "y" (by decide)
      (by decide)).2 (by decide)⟩
